import Mathlib

/-!
Verification of the binomial-model lattice and its option-valuation engines
(`src/binomialmodel/creation/binomialModelSmart.py`,
`src/binomialmodel/optionvaluation/{europeanOption,americanOption,knockOutOption}.py`).

Python floats are embedded as exact rationals (`ℚ`); NumPy triangular matrices
become total functions of the two indices, and every claim is stated on the
triangle `0 ≤ j ≤ time` that the source actually fills (the remaining entries
of the NumPy matrices are `nan` and are never read by the code under study).
-/

/-- The parameters that every binomial model in the repository carries
(`BinomialModel.__init__`, inherited by `BinomialModelSmart`). -/
structure BinomialModel where
  initialValue : ℚ
  decreaseIfDown : ℚ
  increaseIfUp : ℚ
  numberOfTimes : ℕ
  interestRate : ℚ

/-- Modelled from the spec: the abstract base class `binomialModel.py` is not in
`src/` (only its subclasses are); per spec §3 and the `BinomialModelSmart`
docstring it sets `riskNeutralProbabilityUp = ((1+ρ)-d)/(u-d)`. -/
def riskNeutralProbabilityUp (M : BinomialModel) : ℚ :=
  (1 + M.interestRate - M.decreaseIfDown) / (M.increaseIfUp - M.decreaseIfDown)

/-- `BinomialModelSmart.generateRealizations`: entry `(k, j)` of the lattice
table, built by the source recurrence
`realizations[k, 0] = u * realizations[k-1, 0]` and
`realizations[k, 1:k+1] = d * realizations[k-1, 0:k]`
from `realizations[0, 0] = initialValue`. -/
def realization (M : BinomialModel) : ℕ → ℕ → ℚ
  | 0, _ => M.initialValue
  | k + 1, 0 => M.increaseIfUp * realization M k 0
  | k + 1, j + 1 => M.decreaseIfDown * realization M k j

/-- `BinomialModelSmart.getRealizationsAtGivenTime`: the row
`realizations[timeIndex, 0:timeIndex+1]`. -/
def getRealizationsAtGivenTime (M : BinomialModel) (timeIndex : ℕ) : List ℚ :=
  (List.range (timeIndex + 1)).map (realization M timeIndex)

/-- The probability the source attributes to the realization with
`numberOfDowns` downs at time `timeIndex`:
`scipy.special.binom(timeIndex, numberOfDowns) * q**(timeIndex-numberOfDowns) * (1-q)**numberOfDowns`. -/
def probabilityOfRealization (M : BinomialModel) (timeIndex numberOfDowns : ℕ) : ℚ :=
  (Nat.choose timeIndex numberOfDowns : ℚ) *
    riskNeutralProbabilityUp M ^ (timeIndex - numberOfDowns) *
    (1 - riskNeutralProbabilityUp M) ^ numberOfDowns

/-- `BinomialModelSmart.getProbabilitiesOfRealizationsAtGivenTime`.  At
`timeIndex = 0` the source returns the scalar `1.0` rather than a list; it is
embedded as the singleton list `[1]`, which is how that scalar behaves in the
`np.dot` calls that consume it. -/
def getProbabilitiesOfRealizationsAtGivenTime (M : BinomialModel) (timeIndex : ℕ) : List ℚ :=
  (List.range (timeIndex + 1)).map (probabilityOfRealization M timeIndex)

/-- `np.dot` of two equal-length vectors, as used throughout the sources. -/
def listDot (xs ys : List ℚ) : ℚ :=
  (List.zipWith (· * ·) xs ys).sum

/-- `BinomialModelSmart.getDiscountedAverageAtGivenTime`: `initialValue` at
time `0`, otherwise `(1+ρ)^(-timeIndex) * np.dot(probabilities, realizations)`. -/
def getDiscountedAverageAtGivenTime (M : BinomialModel) : ℕ → ℚ
  | 0 => M.initialValue
  | t + 1 =>
      listDot (getProbabilitiesOfRealizationsAtGivenTime M (t + 1))
        (getRealizationsAtGivenTime M (t + 1)) / (1 + M.interestRate) ^ (t + 1)

lemma realization_closed_form (M : BinomialModel) :
    ∀ t j : ℕ, j ≤ t →
      realization M t j = M.initialValue * M.increaseIfUp ^ (t - j) * M.decreaseIfDown ^ j := by
  intro t
  induction t with
  | zero =>
      intro j hj
      interval_cases j
      simp [realization]
  | succ k ih =>
      intro j hj
      cases j with
      | zero =>
          rw [realization, ih 0 (Nat.zero_le k)]
          simp only [Nat.sub_zero, pow_succ]
          ring
      | succ i =>
          rw [realization, ih i (Nat.succ_le_succ_iff.mp hj)]
          have : k + 1 - (i + 1) = k - i := Nat.succ_sub_succ k i
          rw [this]
          ring

/-- C3: the lattice table built by `BinomialModelSmart.generateRealizations`
via the recurrence `entry(k,0) = u*entry(k-1,0)`,
`entry(k,j) = d*entry(k-1,j-1)` satisfies the closed form
`entry(t,j) = initialValue * u^(t-j) * d^j`; index `0` of a time slice is the
all-ups entry (`j = 0` downs) and index `t` the all-downs entry (`j = t`). -/
theorem lattice_entry_closed_form (M : BinomialModel) (t j : ℕ) (hj : j ≤ t)
    (_ht : t ≤ M.numberOfTimes - 1) :
    realization M t j = M.initialValue * M.increaseIfUp ^ (t - j) * M.decreaseIfDown ^ j :=
  realization_closed_form M t j hj

theorem lattice_entry_closed_form_witness :
    realization ⟨4, 1/2, 2, 3, 0⟩ 2 1 =
      (⟨4, 1/2, 2, 3, 0⟩ : BinomialModel).initialValue * (2 : ℚ) ^ (2 - 1) * (1/2 : ℚ) ^ 1 :=
  lattice_entry_closed_form ⟨4, 1/2, 2, 3, 0⟩ 2 1 (by decide) (by decide)

lemma listDot_map_map (f g : ℕ → ℚ) (l : List ℕ) :
    listDot (l.map f) (l.map g) = (l.map (fun i => f i * g i)).sum := by
  induction l with
  | nil => rfl
  | cons a l ih =>
      simp only [List.map_cons, listDot, List.zipWith_cons_cons, List.sum_cons]
      rw [← ih]
      rfl

lemma sum_map_range (f : ℕ → ℚ) (n : ℕ) :
    ((List.range n).map f).sum = ∑ i ∈ Finset.range n, f i := by
  induction n with
  | zero => rfl
  | succ n ih =>
      rw [List.range_succ, List.map_append, List.sum_append, Finset.sum_range_succ, ih]
      simp

lemma listDot_range (f g : ℕ → ℚ) (n : ℕ) :
    listDot ((List.range n).map f) ((List.range n).map g) =
      ∑ i ∈ Finset.range n, f i * g i := by
  rw [listDot_map_map, sum_map_range]

lemma riskNeutral_combination (M : BinomialModel) (hud : M.increaseIfUp ≠ M.decreaseIfDown) :
    riskNeutralProbabilityUp M * M.increaseIfUp +
      (1 - riskNeutralProbabilityUp M) * M.decreaseIfDown = 1 + M.interestRate := by
  unfold riskNeutralProbabilityUp
  have h : M.increaseIfUp - M.decreaseIfDown ≠ 0 := sub_ne_zero_of_ne hud
  field_simp
  ring

/-- C2: for every valid parameter set and every time index in range,
`BinomialModelSmart.getDiscountedAverageAtGivenTime` returns exactly the
initial value: the discounted expected lattice value is time-invariant. -/
theorem discounted_average_eq_initialValue (M : BinomialModel)
    (_h0 : 0 < M.initialValue) (hd : 0 < M.decreaseIfDown)
    (hdr : M.decreaseIfDown < 1 + M.interestRate) (hru : 1 + M.interestRate < M.increaseIfUp)
    (t : ℕ) (_ht : t ≤ M.numberOfTimes - 1) :
    getDiscountedAverageAtGivenTime M t = M.initialValue := by
  cases t with
  | zero => rfl
  | succ s =>
      have hud : M.increaseIfUp ≠ M.decreaseIfDown := by linarith
      have hrho : (0 : ℚ) < 1 + M.interestRate := lt_trans hd hdr
      have hrpow : (1 + M.interestRate) ^ (s + 1) ≠ 0 := pow_ne_zero _ (ne_of_gt hrho)
      rw [getDiscountedAverageAtGivenTime, getProbabilitiesOfRealizationsAtGivenTime,
        getRealizationsAtGivenTime, listDot_range, div_eq_iff hrpow]
      have hterm : ∀ i ∈ Finset.range (s + 2),
          probabilityOfRealization M (s + 1) i * realization M (s + 1) i =
            M.initialValue *
              (((1 - riskNeutralProbabilityUp M) * M.decreaseIfDown) ^ i *
                (riskNeutralProbabilityUp M * M.increaseIfUp) ^ (s + 1 - i) *
                (Nat.choose (s + 1) i : ℚ)) := by
        intro i hi
        rw [Finset.mem_range] at hi
        rw [probabilityOfRealization,
          realization_closed_form M (s + 1) i (Nat.lt_succ_iff.mp hi)]
        rw [mul_pow, mul_pow]
        ring
      rw [Finset.sum_congr rfl hterm, ← Finset.mul_sum, ← add_pow]
      have hcomb : (1 - riskNeutralProbabilityUp M) * M.decreaseIfDown +
          riskNeutralProbabilityUp M * M.increaseIfUp = 1 + M.interestRate := by
        rw [add_comm]
        exact riskNeutral_combination M hud
      rw [hcomb]

theorem discounted_average_eq_initialValue_witness :
    getDiscountedAverageAtGivenTime ⟨4, 1/2, 2, 3, 1/10⟩ 2 =
      (⟨4, 1/2, 2, 3, 1/10⟩ : BinomialModel).initialValue :=
  discounted_average_eq_initialValue ⟨4, 1/2, 2, 3, 1/10⟩ (by norm_num) (by norm_num)
    (by norm_num) (by norm_num) 2 (by norm_num)

/-- `EuropeanOption.getValuesPortfolioBackward`, by distance from maturity:
`valuesPortfolioRow M f m s j` is entry `(m - s, j)` of the (undiscounted)
backward grid, i.e. the row reached after `s` backward steps of
`V(k,j) = q*V(k+1,j) + (1-q)*V(k+1,j+1)` from the terminal row of payoffs. -/
def valuesPortfolioRow (M : BinomialModel) (f : ℚ → ℚ) (m : ℕ) : ℕ → ℕ → ℚ
  | 0, j => f (realization M m j)
  | s + 1, j =>
      riskNeutralProbabilityUp M * valuesPortfolioRow M f m s j +
        (1 - riskNeutralProbabilityUp M) * valuesPortfolioRow M f m s (j + 1)

/-- `EuropeanOption.getValuesPortfolioBackward` as a grid: entry `(k, j)`. -/
def getValuesPortfolioBackward (M : BinomialModel) (f : ℚ → ℚ) (m k j : ℕ) : ℚ :=
  valuesPortfolioRow M f m (m - k) j

/-- `EuropeanOption.getDiscountedValuesPortfolioBackward`, by distance from
maturity: the same backward recursion with each step divided by `(1+ρ)`. -/
def discountedValuesPortfolioRow (M : BinomialModel) (f : ℚ → ℚ) (m : ℕ) : ℕ → ℕ → ℚ
  | 0, j => f (realization M m j)
  | s + 1, j =>
      (riskNeutralProbabilityUp M * discountedValuesPortfolioRow M f m s j +
        (1 - riskNeutralProbabilityUp M) * discountedValuesPortfolioRow M f m s (j + 1)) /
        (1 + M.interestRate)

/-- `EuropeanOption.getDiscountedValuesPortfolioBackward` as a grid: entry `(k, j)`. -/
def getDiscountedValuesPortfolioBackward (M : BinomialModel) (f : ℚ → ℚ) (m k j : ℕ) : ℚ :=
  discountedValuesPortfolioRow M f m (m - k) j

/-- `EuropeanOption.evaluatePayoff`:
`np.dot(probabilities, [payoff(x) for x in realizations])` at maturity. -/
def evaluatePayoff (M : BinomialModel) (f : ℚ → ℚ) (maturity : ℕ) : ℚ :=
  listDot (getProbabilitiesOfRealizationsAtGivenTime M maturity)
    ((getRealizationsAtGivenTime M maturity).map f)

/-- `EuropeanOption.evaluateDiscountedPayoff`:
`(1+ρ)^(-maturity) * evaluatePayoff(payoff, maturity)`. -/
def evaluateDiscountedPayoff (M : BinomialModel) (f : ℚ → ℚ) (maturity : ℕ) : ℚ :=
  evaluatePayoff M f maturity / (1 + M.interestRate) ^ maturity

lemma binom_conv (x y : ℚ) (v : ℕ → ℚ) (s j : ℕ) :
    x * (∑ i ∈ Finset.range (s + 1), (Nat.choose s i : ℚ) * x ^ (s - i) * y ^ i * v (j + i)) +
      y * (∑ i ∈ Finset.range (s + 1),
        (Nat.choose s i : ℚ) * x ^ (s - i) * y ^ i * v (j + 1 + i)) =
    ∑ i ∈ Finset.range (s + 2), (Nat.choose (s + 1) i : ℚ) * x ^ (s + 1 - i) * y ^ i * v (j + i) := by
  rw [Finset.sum_range_succ' (fun i => (Nat.choose (s + 1) i : ℚ) * x ^ (s + 1 - i) * y ^ i * v (j + i)) (s + 1)]
  have hsplit : ∀ i ∈ Finset.range (s + 1),
      (Nat.choose (s + 1) (i + 1) : ℚ) * x ^ (s + 1 - (i + 1)) * y ^ (i + 1) * v (j + (i + 1)) =
        (Nat.choose s i : ℚ) * x ^ (s - i) * y ^ (i + 1) * v (j + 1 + i) +
          (Nat.choose s (i + 1) : ℚ) * x ^ (s - i) * y ^ (i + 1) * v (j + 1 + i) := by
    intro i _
    rw [Nat.choose_succ_succ, Nat.succ_sub_succ]
    have hv : j + (i + 1) = j + 1 + i := by omega
    rw [hv]
    push_cast
    ring
  rw [Finset.sum_congr rfl hsplit, Finset.sum_add_distrib]
  have hy : ∑ i ∈ Finset.range (s + 1),
      (Nat.choose s i : ℚ) * x ^ (s - i) * y ^ (i + 1) * v (j + 1 + i) =
        y * ∑ i ∈ Finset.range (s + 1),
          (Nat.choose s i : ℚ) * x ^ (s - i) * y ^ i * v (j + 1 + i) := by
    rw [Finset.mul_sum]
    refine Finset.sum_congr rfl fun i _ => ?_
    ring
  have hx : ∑ i ∈ Finset.range (s + 1),
      (Nat.choose s (i + 1) : ℚ) * x ^ (s - i) * y ^ (i + 1) * v (j + 1 + i) +
        (Nat.choose (s + 1) 0 : ℚ) * x ^ (s + 1 - 0) * y ^ 0 * v (j + 0) =
      x * ∑ i ∈ Finset.range (s + 1),
        (Nat.choose s i : ℚ) * x ^ (s - i) * y ^ i * v (j + i) := by
    rw [Finset.mul_sum,
      Finset.sum_range_succ' (fun i => x * ((Nat.choose s i : ℚ) * x ^ (s - i) * y ^ i * v (j + i))) s]
    rw [Finset.sum_range_succ
      (fun i => (Nat.choose s (i + 1) : ℚ) * x ^ (s - i) * y ^ (i + 1) * v (j + 1 + i)) s]
    rw [Nat.choose_succ_self]
    have hcongr : ∀ i ∈ Finset.range s,
        (Nat.choose s (i + 1) : ℚ) * x ^ (s - i) * y ^ (i + 1) * v (j + 1 + i) =
          x * ((Nat.choose s (i + 1) : ℚ) * x ^ (s - (i + 1)) * y ^ (i + 1) * v (j + (i + 1))) := by
      intro i hi
      rw [Finset.mem_range] at hi
      have hv : j + (i + 1) = j + 1 + i := by omega
      have hp : s - i = s - (i + 1) + 1 := by omega
      rw [hv, hp, pow_succ]
      ring
    rw [Finset.sum_congr rfl hcongr]
    push_cast
    simp only [Nat.choose_zero_right, Nat.cast_one, pow_zero, Nat.sub_zero, Nat.add_zero]
    ring
  linarith [hy, hx]

lemma valuesPortfolioRow_eq_sum (M : BinomialModel) (f : ℚ → ℚ) (m : ℕ) :
    ∀ s j : ℕ, valuesPortfolioRow M f m s j =
      ∑ i ∈ Finset.range (s + 1),
        (Nat.choose s i : ℚ) * riskNeutralProbabilityUp M ^ (s - i) *
          (1 - riskNeutralProbabilityUp M) ^ i * f (realization M m (j + i)) := by
  intro s
  induction s with
  | zero =>
      intro j
      simp [valuesPortfolioRow]
  | succ s ih =>
      intro j
      rw [valuesPortfolioRow, ih j, ih (j + 1)]
      exact binom_conv (riskNeutralProbabilityUp M) (1 - riskNeutralProbabilityUp M)
        (fun n => f (realization M m n)) s j

lemma evaluatePayoff_eq_row (M : BinomialModel) (f : ℚ → ℚ) (m : ℕ) :
    evaluatePayoff M f m = valuesPortfolioRow M f m m 0 := by
  rw [evaluatePayoff, getProbabilitiesOfRealizationsAtGivenTime, getRealizationsAtGivenTime,
    List.map_map, listDot_range, valuesPortfolioRow_eq_sum]
  refine Finset.sum_congr rfl fun i _ => ?_
  rw [probabilityOfRealization]
  simp [Function.comp]

lemma discountedRow_eq_div (M : BinomialModel) (f : ℚ → ℚ) (m : ℕ) :
    ∀ s j : ℕ, discountedValuesPortfolioRow M f m s j =
      valuesPortfolioRow M f m s j / (1 + M.interestRate) ^ s := by
  intro s
  induction s with
  | zero =>
      intro j
      simp [discountedValuesPortfolioRow, valuesPortfolioRow]
  | succ s ih =>
      intro j
      rw [discountedValuesPortfolioRow, valuesPortfolioRow, ih j, ih (j + 1),
        ← mul_div_assoc, ← mul_div_assoc, div_add_div_same, div_div, ← pow_succ]

lemma evaluateDiscountedPayoff_eq_discounted_row (M : BinomialModel) (f : ℚ → ℚ) (m : ℕ) :
    evaluateDiscountedPayoff M f m = discountedValuesPortfolioRow M f m m 0 := by
  rw [evaluateDiscountedPayoff, evaluatePayoff_eq_row, discountedRow_eq_div]

/-- C1: for every scalar payoff and maturity in range, the European engine's
direct price `EuropeanOption.evaluateDiscountedPayoff(payoff, m)` equals entry
`[0][0]` of the grid returned by
`EuropeanOption.getDiscountedValuesPortfolioBackward(payoff, m)`. -/
theorem european_price_eq_backward_grid (M : BinomialModel) (f : ℚ → ℚ) (m : ℕ)
    (_hm : m ≤ M.numberOfTimes - 1) :
    evaluateDiscountedPayoff M f m = getDiscountedValuesPortfolioBackward M f m 0 0 := by
  rw [getDiscountedValuesPortfolioBackward, Nat.sub_zero,
    evaluateDiscountedPayoff_eq_discounted_row]

theorem european_price_eq_backward_grid_witness :
    evaluateDiscountedPayoff ⟨4, 1/2, 2, 3, 1/10⟩ (fun x => max (x - 4) 0) 2 =
      getDiscountedValuesPortfolioBackward ⟨4, 1/2, 2, 3, 1/10⟩ (fun x => max (x - 4) 0) 2 0 0 :=
  european_price_eq_backward_grid ⟨4, 1/2, 2, 3, 1/10⟩ (fun x => max (x - 4) 0) 2 (by norm_num)

/-- `AmericanOption.getValueOption`, by distance from maturity: after `s`
backward steps the current option values are
`np.maximum(optionPart, valuationPart)` where `optionPart` is the payoff at the
current time `m - s` and `valuationPart(j) = (q*V(j) + (1-q)*V(j+1))/(1+ρ)`
over the previous values `V`. -/
def americanValuesRow (M : BinomialModel) (f : ℚ → ℚ) (m : ℕ) : ℕ → ℕ → ℚ
  | 0, j => f (realization M m j)
  | s + 1, j =>
      max (f (realization M (m - (s + 1)) j))
        ((riskNeutralProbabilityUp M * americanValuesRow M f m s j +
          (1 - riskNeutralProbabilityUp M) * americanValuesRow M f m s (j + 1)) /
          (1 + M.interestRate))

/-- `AmericanOption.getValueOption(payoff, maturity)`: the value left at the
root after the full backward pass. -/
def getValueOption (M : BinomialModel) (f : ℚ → ℚ) (maturity : ℕ) : ℚ :=
  americanValuesRow M f maturity maturity 0

lemma q_nonneg (M : BinomialModel) (hdr : M.decreaseIfDown < 1 + M.interestRate)
    (hru : 1 + M.interestRate < M.increaseIfUp) : 0 ≤ riskNeutralProbabilityUp M := by
  have hud : (0 : ℚ) < M.increaseIfUp - M.decreaseIfDown := by linarith
  exact div_nonneg (by linarith) (le_of_lt hud)

lemma q_le_one (M : BinomialModel) (hdr : M.decreaseIfDown < 1 + M.interestRate)
    (hru : 1 + M.interestRate < M.increaseIfUp) : riskNeutralProbabilityUp M ≤ 1 := by
  have hud : (0 : ℚ) < M.increaseIfUp - M.decreaseIfDown := by linarith
  rw [riskNeutralProbabilityUp, div_le_one hud]
  linarith

lemma american_row_ge_discounted_row (M : BinomialModel) (f : ℚ → ℚ) (m : ℕ)
    (hq0 : 0 ≤ riskNeutralProbabilityUp M) (hq1 : riskNeutralProbabilityUp M ≤ 1)
    (hrho : (0 : ℚ) < 1 + M.interestRate) :
    ∀ s j : ℕ, discountedValuesPortfolioRow M f m s j ≤ americanValuesRow M f m s j := by
  intro s
  induction s with
  | zero => intro j; exact le_refl _
  | succ s ih =>
      intro j
      refine le_trans ?_ (le_max_right _ _)
      rw [discountedValuesPortfolioRow]
      rw [div_le_div_iff_of_pos_right hrho]
      have h1 := ih j
      have h2 := ih (j + 1)
      have hq1' : (0 : ℚ) ≤ 1 - riskNeutralProbabilityUp M := by linarith
      nlinarith [mul_le_mul_of_nonneg_left h1 hq0, mul_le_mul_of_nonneg_left h2 hq1']

/-- C4: with valid parameters, for every payoff and maturity in range the
American price `AmericanOption.getValueOption(payoff, m)` dominates the
European discounted price `EuropeanOption.evaluateDiscountedPayoff(payoff, m)`
on the same underlying model. -/
theorem american_ge_european (M : BinomialModel) (f : ℚ → ℚ) (m : ℕ)
    (hd : 0 < M.decreaseIfDown) (hdr : M.decreaseIfDown < 1 + M.interestRate)
    (hru : 1 + M.interestRate < M.increaseIfUp) (_hm : m ≤ M.numberOfTimes - 1) :
    evaluateDiscountedPayoff M f m ≤ getValueOption M f m := by
  rw [evaluateDiscountedPayoff_eq_discounted_row, getValueOption]
  exact american_row_ge_discounted_row M f m (q_nonneg M hdr hru) (q_le_one M hdr hru)
    (lt_trans hd hdr) m 0

theorem american_ge_european_witness :
    evaluateDiscountedPayoff ⟨20, 9/10, 11/10, 4, 1/20⟩ (fun x => max (20 - x) 0) 3 ≤
      getValueOption ⟨20, 9/10, 11/10, 4, 1/20⟩ (fun x => max (20 - x) 0) 3 :=
  american_ge_european ⟨20, 9/10, 11/10, 4, 1/20⟩ (fun x => max (20 - x) 0) 3
    (by norm_num) (by norm_num) (by norm_num) (by norm_num)

/-- `AmericanOption.getAnalysisOption`, first return value: the matrix
`valuesOption` is filled by the same backward `np.maximum` recursion as
`getValueOption`; entry `(t, j)`. -/
def valuesOption (M : BinomialModel) (f : ℚ → ℚ) (m t j : ℕ) : ℚ :=
  americanValuesRow M f m (m - t) j

/-- `AmericanOption.getAnalysisOption`, second return value: `valuesExercise`
holds `optionPart`, the payoff of exercising at the current node (at maturity
the row is likewise set to the payoff). -/
def valuesExercise (M : BinomialModel) (f : ℚ → ℚ) (_m t j : ℕ) : ℚ :=
  f (realization M t j)

/-- `AmericanOption.getAnalysisOption`, third return value: `valuesIfWait`
holds `valuationPart = q/(1+ρ)*V(t+1,j) + (1-q)/(1+ρ)*V(t+1,j+1)` for `t` below
maturity, and the payoff on the maturity row. -/
def valuesIfWait (M : BinomialModel) (f : ℚ → ℚ) (m t j : ℕ) : ℚ :=
  if t = m then f (realization M m j)
  else
    riskNeutralProbabilityUp M / (1 + M.interestRate) * americanValuesRow M f m (m - t - 1) j +
      (1 - riskNeutralProbabilityUp M) / (1 + M.interestRate) *
        americanValuesRow M f m (m - t - 1) (j + 1)

/-- `AmericanOption.getAnalysisOption`, fourth return value: the exercise
region, `1.0` on the whole maturity row
(`exercise[maturity,:] = np.full(maturity+1, True)`), and below maturity
`optionPart > valuationPart` converted to `1.0`/`0.0`. -/
def exercise (M : BinomialModel) (f : ℚ → ℚ) (m t j : ℕ) : ℚ :=
  if t = m then 1
  else if valuesIfWait M f m t j < valuesExercise M f m t j then 1 else 0

lemma valuesOption_eq_max (M : BinomialModel) (f : ℚ → ℚ) (m t j : ℕ) (ht : t ≤ m) :
    valuesOption M f m t j = max (valuesExercise M f m t j) (valuesIfWait M f m t j) := by
  rcases eq_or_lt_of_le ht with heq | hlt
  · subst heq
    rw [valuesOption, Nat.sub_self, americanValuesRow, valuesExercise, valuesIfWait,
      if_pos rfl, max_self]
  · have hs : m - t = (m - t - 1) + 1 := by omega
    rw [valuesOption, hs, americanValuesRow]
    have harg : m - (m - t - 1 + 1) = t := by omega
    rw [harg, valuesExercise, valuesIfWait, if_neg (Nat.ne_of_lt hlt)]
    congr 1
    rw [div_mul_eq_mul_div, div_mul_eq_mul_div, div_add_div_same]

/-- C7 as stated is false: at a node below maturity where the exercise value
ties the continuation value, `AmericanOption.getAnalysisOption` records `0`
(wait), not `1`: with the zero payoff on the model
`(S0=4, d=1/2, u=2, N=2, ρ=0)` at maturity `1`, node `(0,0)` ties and the
exercise flag is `0`. -/
theorem exercise_flag_tie_counterexample :
    valuesExercise ⟨4, 1/2, 2, 2, 0⟩ (fun _ => 0) 1 0 0 =
        valuesIfWait ⟨4, 1/2, 2, 2, 0⟩ (fun _ => 0) 1 0 0 ∧
      exercise ⟨4, 1/2, 2, 2, 0⟩ (fun _ => 0) 1 0 0 = 0 := by
  constructor
  · show (0 : ℚ) = valuesIfWait ⟨4, 1/2, 2, 2, 0⟩ (fun _ => 0) 1 0 0
    rw [valuesIfWait]
    norm_num [americanValuesRow]
  · rw [exercise]
    norm_num [valuesIfWait, valuesExercise, americanValuesRow]

/-- C7 amended: at every node the realized option value is
`max(exerciseValue, continuationValue)`; below maturity the exercise flag of
`AmericanOption.getAnalysisOption` is `1` exactly when the exercise value
STRICTLY exceeds the continuation value, so a tie is resolved in favor of
waiting (flag `0`); on the maturity row the flag is `1`. -/
theorem american_flag_strict_improvement (M : BinomialModel) (f : ℚ → ℚ) (m t j : ℕ)
    (_hj : j ≤ t) (ht : t ≤ m) :
    valuesOption M f m t j = max (valuesExercise M f m t j) (valuesIfWait M f m t j) ∧
      (t < m →
        ((exercise M f m t j = 1 ↔ valuesIfWait M f m t j < valuesExercise M f m t j) ∧
          (valuesExercise M f m t j = valuesIfWait M f m t j → exercise M f m t j = 0))) ∧
      (t = m → exercise M f m t j = 1) := by
  refine ⟨valuesOption_eq_max M f m t j ht, fun hlt => ?_, fun heq => ?_⟩
  · have hne : t ≠ m := Nat.ne_of_lt hlt
    constructor
    · rw [exercise, if_neg hne]
      constructor
      · intro h1
        by_contra hnot
        rw [if_neg hnot] at h1
        exact zero_ne_one h1
      · intro hlt'
        rw [if_pos hlt']
    · intro htie
      rw [exercise, if_neg hne, if_neg (by rw [htie]; exact lt_irrefl _)]
  · rw [exercise, if_pos heq]

theorem american_flag_strict_improvement_witness :
    valuesOption ⟨4, 1/2, 2, 2, 0⟩ (fun x => max (4 - x) 0) 1 0 0 =
        max (valuesExercise ⟨4, 1/2, 2, 2, 0⟩ (fun x => max (4 - x) 0) 1 0 0)
          (valuesIfWait ⟨4, 1/2, 2, 2, 0⟩ (fun x => max (4 - x) 0) 1 0 0) ∧
      ((0 : ℕ) < 1 →
        ((exercise ⟨4, 1/2, 2, 2, 0⟩ (fun x => max (4 - x) 0) 1 0 0 = 1 ↔
            valuesIfWait ⟨4, 1/2, 2, 2, 0⟩ (fun x => max (4 - x) 0) 1 0 0 <
              valuesExercise ⟨4, 1/2, 2, 2, 0⟩ (fun x => max (4 - x) 0) 1 0 0) ∧
          (valuesExercise ⟨4, 1/2, 2, 2, 0⟩ (fun x => max (4 - x) 0) 1 0 0 =
              valuesIfWait ⟨4, 1/2, 2, 2, 0⟩ (fun x => max (4 - x) 0) 1 0 0 →
            exercise ⟨4, 1/2, 2, 2, 0⟩ (fun x => max (4 - x) 0) 1 0 0 = 0))) ∧
      ((0 : ℕ) = 1 → exercise ⟨4, 1/2, 2, 2, 0⟩ (fun x => max (4 - x) 0) 1 0 0 = 1) :=
  american_flag_strict_improvement ⟨4, 1/2, 2, 2, 0⟩ (fun x => max (4 - x) 0) 1 0 0
    (le_refl 0) (Nat.zero_le 1)

/-- C10: the four grids returned by `AmericanOption.getAnalysisOption` are
mutually consistent on the triangle: at every node the option value is the
maximum of the exercise and continuation grids, the exercise grid is the
payoff of the lattice value at that node, and on the maturity row the exercise
flag is `1` while the continuation grid also equals the payoff. -/
theorem analysis_grids_consistent (M : BinomialModel) (f : ℚ → ℚ) (m t j : ℕ)
    (_hj : j ≤ t) (ht : t ≤ m) :
    valuesOption M f m t j = max (valuesExercise M f m t j) (valuesIfWait M f m t j) ∧
      valuesExercise M f m t j = f (realization M t j) ∧
      (t = m →
        exercise M f m t j = 1 ∧ valuesIfWait M f m t j = f (realization M m j)) := by
  refine ⟨valuesOption_eq_max M f m t j ht, rfl, fun heq => ?_⟩
  exact ⟨by rw [exercise, if_pos heq], by rw [valuesIfWait, if_pos heq]⟩

theorem analysis_grids_consistent_witness :
    valuesOption ⟨4, 1/2, 2, 2, 0⟩ (fun x => max (4 - x) 0) 1 1 1 =
        max (valuesExercise ⟨4, 1/2, 2, 2, 0⟩ (fun x => max (4 - x) 0) 1 1 1)
          (valuesIfWait ⟨4, 1/2, 2, 2, 0⟩ (fun x => max (4 - x) 0) 1 1 1) ∧
      valuesExercise ⟨4, 1/2, 2, 2, 0⟩ (fun x => max (4 - x) 0) 1 1 1 =
        (fun x => max (4 - x) 0) (realization ⟨4, 1/2, 2, 2, 0⟩ 1 1) ∧
      ((1 : ℕ) = 1 →
        exercise ⟨4, 1/2, 2, 2, 0⟩ (fun x => max (4 - x) 0) 1 1 1 = 1 ∧
          valuesIfWait ⟨4, 1/2, 2, 2, 0⟩ (fun x => max (4 - x) 0) 1 1 1 =
            (fun x => max (4 - x) 0) (realization ⟨4, 1/2, 2, 2, 0⟩ 1 1)) :=
  analysis_grids_consistent ⟨4, 1/2, 2, 2, 0⟩ (fun x => max (4 - x) 0) 1 1 1
    (le_refl 1) (le_refl 1)

/-- `KnockOutOption.getValuesOptionBackward`, by distance from maturity: the
terminal payoff is zeroed outside the open barrier interval, and each backward
step multiplies the (undiscounted) expectation by the two indicator factors
`(processRealizations < upperBarrier)` and `(processRealizations > lowerBarrier)`. -/
def knockOutValuesRow (M : BinomialModel) (f : ℚ → ℚ) (m : ℕ)
    (lowerBarrier upperBarrier : ℚ) : ℕ → ℕ → ℚ
  | 0, j =>
      if lowerBarrier < realization M m j ∧ realization M m j < upperBarrier then
        f (realization M m j)
      else 0
  | s + 1, j =>
      (riskNeutralProbabilityUp M * knockOutValuesRow M f m lowerBarrier upperBarrier s j +
        (1 - riskNeutralProbabilityUp M) *
          knockOutValuesRow M f m lowerBarrier upperBarrier s (j + 1)) *
        (if realization M (m - (s + 1)) j < upperBarrier then 1 else 0) *
        (if lowerBarrier < realization M (m - (s + 1)) j then 1 else 0)

/-- `KnockOutOption.getValuesOptionBackward` as a grid: entry `(t, j)`. -/
def getValuesOptionBackward (M : BinomialModel) (f : ℚ → ℚ) (m : ℕ)
    (lowerBarrier upperBarrier : ℚ) (t j : ℕ) : ℚ :=
  knockOutValuesRow M f m lowerBarrier upperBarrier (m - t) j

/-- `KnockOutOption.getInitialValueOption`: entry `[0, 0]` of the grid. -/
def getInitialValueOption (M : BinomialModel) (f : ℚ → ℚ) (m : ℕ)
    (lowerBarrier upperBarrier : ℚ) : ℚ :=
  getValuesOptionBackward M f m lowerBarrier upperBarrier 0 0

/-- `KnockOutOption.getInitialDiscountedValueOption`:
`getInitialValueOption(...) * (1+ρ)^(-maturity)`. -/
def getInitialDiscountedValueOption (M : BinomialModel) (f : ℚ → ℚ) (m : ℕ)
    (lowerBarrier upperBarrier : ℚ) : ℚ :=
  getInitialValueOption M f m lowerBarrier upperBarrier / (1 + M.interestRate) ^ m

lemma european_row_nonneg (M : BinomialModel) (f : ℚ → ℚ) (m : ℕ)
    (hq0 : 0 ≤ riskNeutralProbabilityUp M) (hq1 : riskNeutralProbabilityUp M ≤ 1)
    (hf : ∀ x, 0 ≤ f x) :
    ∀ s j : ℕ, 0 ≤ valuesPortfolioRow M f m s j := by
  intro s
  induction s with
  | zero => intro j; exact hf _
  | succ s ih =>
      intro j
      rw [valuesPortfolioRow]
      have := ih j
      have := ih (j + 1)
      nlinarith

lemma knockOut_row_le_european_row (M : BinomialModel) (f : ℚ → ℚ) (m : ℕ)
    (lowerBarrier upperBarrier : ℚ)
    (hq0 : 0 ≤ riskNeutralProbabilityUp M) (hq1 : riskNeutralProbabilityUp M ≤ 1)
    (hf : ∀ x, 0 ≤ f x) :
    ∀ s j : ℕ, 0 ≤ knockOutValuesRow M f m lowerBarrier upperBarrier s j ∧
      knockOutValuesRow M f m lowerBarrier upperBarrier s j ≤ valuesPortfolioRow M f m s j := by
  intro s
  induction s with
  | zero =>
      intro j
      rw [knockOutValuesRow, valuesPortfolioRow]
      split
      · exact ⟨hf _, le_refl _⟩
      · exact ⟨le_refl 0, hf _⟩
  | succ s ih =>
      intro j
      obtain ⟨hK0, hKU⟩ := ih j
      obtain ⟨hK0', hKU'⟩ := ih (j + 1)
      rw [knockOutValuesRow, valuesPortfolioRow]
      have hmix0 : 0 ≤
          riskNeutralProbabilityUp M * knockOutValuesRow M f m lowerBarrier upperBarrier s j +
            (1 - riskNeutralProbabilityUp M) *
              knockOutValuesRow M f m lowerBarrier upperBarrier s (j + 1) := by
        nlinarith
      have hmixle :
          riskNeutralProbabilityUp M * knockOutValuesRow M f m lowerBarrier upperBarrier s j +
            (1 - riskNeutralProbabilityUp M) *
              knockOutValuesRow M f m lowerBarrier upperBarrier s (j + 1) ≤
          riskNeutralProbabilityUp M * valuesPortfolioRow M f m s j +
            (1 - riskNeutralProbabilityUp M) * valuesPortfolioRow M f m s (j + 1) := by
        nlinarith
      constructor
      · split <;> split <;> simp <;> nlinarith
      · split <;> split <;> simp <;> nlinarith

/-- C6 as stated is false: with a payoff that can be negative, zeroing the
knocked-out nodes RAISES the value, so the knock-out price can exceed the
European price.  Concretely, on the model `(S0=4, d=1/2, u=2, N=2, ρ=0)` with
the constant payoff `-1`, maturity `1`, and the barriers `(3, 5)` (strictly
inside the reachable range `[2, 8]`), the knock-out price is `0` while the
European price is `-1`. -/
theorem knockout_gt_european_counterexample :
    evaluateDiscountedPayoff ⟨4, 1/2, 2, 2, 0⟩ (fun _ => -1) 1 <
      getInitialDiscountedValueOption ⟨4, 1/2, 2, 2, 0⟩ (fun _ => -1) 1 3 5 := by
  show evaluateDiscountedPayoff ⟨4, 1/2, 2, 2, 0⟩ (fun _ => -1) 1 <
    getInitialDiscountedValueOption ⟨4, 1/2, 2, 2, 0⟩ (fun _ => -1) 1 3 5
  norm_num [evaluateDiscountedPayoff, evaluatePayoff, getProbabilitiesOfRealizationsAtGivenTime,
    getRealizationsAtGivenTime, listDot, List.range_succ, probabilityOfRealization,
    riskNeutralProbabilityUp, realization, getInitialDiscountedValueOption,
    getInitialValueOption, getValuesOptionBackward, knockOutValuesRow]

/-- C6 amended: under valid parameters and for a NONNEGATIVE payoff, for every
maturity in range and every barrier pair `lowerBarrier < upperBarrier` (in
particular any pair strictly inside the reachable lattice range), the
knock-out price `KnockOutOption.getInitialDiscountedValueOption` is at most
the unrestricted European price
`EuropeanOption.evaluateDiscountedPayoff(payoff, m)` on the same model. -/
theorem knockout_le_european (M : BinomialModel) (f : ℚ → ℚ) (m : ℕ)
    (lowerBarrier upperBarrier : ℚ)
    (hd : 0 < M.decreaseIfDown) (hdr : M.decreaseIfDown < 1 + M.interestRate)
    (hru : 1 + M.interestRate < M.increaseIfUp) (_hm : m ≤ M.numberOfTimes - 1)
    (hf : ∀ x, 0 ≤ f x) (_hb : lowerBarrier < upperBarrier) :
    getInitialDiscountedValueOption M f m lowerBarrier upperBarrier ≤
      evaluateDiscountedPayoff M f m := by
  have hrho : (0 : ℚ) < 1 + M.interestRate := lt_trans hd hdr
  have hpow : (0 : ℚ) < (1 + M.interestRate) ^ m := pow_pos hrho m
  rw [getInitialDiscountedValueOption, getInitialValueOption, getValuesOptionBackward,
    Nat.sub_zero, evaluateDiscountedPayoff, evaluatePayoff_eq_row,
    div_le_div_iff_of_pos_right hpow]
  exact (knockOut_row_le_european_row M f m lowerBarrier upperBarrier
    (q_nonneg M hdr hru) (q_le_one M hdr hru) hf m 0).2

theorem knockout_le_european_witness :
    getInitialDiscountedValueOption ⟨4, 1/2, 2, 2, 0⟩ (fun x => max (x - 4) 0) 1 3 5 ≤
      evaluateDiscountedPayoff ⟨4, 1/2, 2, 2, 0⟩ (fun x => max (x - 4) 0) 1 :=
  knockout_le_european ⟨4, 1/2, 2, 2, 0⟩ (fun x => max (x - 4) 0) 1 3 5
    (by norm_num) (by norm_num) (by norm_num) (by norm_num)
    (fun x => le_max_right _ _) (by norm_num)

/-- `EuropeanOption.getValuesPortfolioBackwardAtGivenTime`: entry `j` of row
`currentTime` of the undiscounted backward grid. -/
def getValuesPortfolioBackwardAtGivenTime (M : BinomialModel) (f : ℚ → ℚ)
    (currentTime maturity j : ℕ) : ℚ :=
  valuesPortfolioRow M f maturity (maturity - currentTime) j

/-- `EuropeanOption.getValuesDiscountedPortfolioBackwardAtGivenTime`:
`(1+ρ)^(-(maturity-currentTime))` times the undiscounted row. -/
def getValuesDiscountedPortfolioBackwardAtGivenTime (M : BinomialModel) (f : ℚ → ℚ)
    (currentTime maturity j : ℕ) : ℚ :=
  getValuesPortfolioBackwardAtGivenTime M f currentTime maturity j /
    (1 + M.interestRate) ^ (maturity - currentTime)

/-- `EuropeanOption.getStrategy`, first matrix: at node `(k, j)`,
`(P(k+1,j) - P(k+1,j+1)) / (S(k+1,j) - S(k+1,j+1))` with `P` the discounted
portfolio values and `S` the lattice realizations at time `k+1`. -/
def amountInRiskyAsset (M : BinomialModel) (f : ℚ → ℚ) (maturity k j : ℕ) : ℚ :=
  (getValuesDiscountedPortfolioBackwardAtGivenTime M f (k + 1) maturity j -
      getValuesDiscountedPortfolioBackwardAtGivenTime M f (k + 1) maturity (j + 1)) /
    (realization M (k + 1) j - realization M (k + 1) (j + 1))

/-- `EuropeanOption.getStrategy`, second matrix: at node `(k, j)`,
`(u*P(k+1,j+1) - d*P(k+1,j)) / ((u-d)*(1+ρ)^k)`. -/
def amountInRiskFreeAsset (M : BinomialModel) (f : ℚ → ℚ) (maturity k j : ℕ) : ℚ :=
  (M.increaseIfUp * getValuesDiscountedPortfolioBackwardAtGivenTime M f (k + 1) maturity (j + 1) -
      M.decreaseIfDown * getValuesDiscountedPortfolioBackwardAtGivenTime M f (k + 1) maturity j) /
    ((M.increaseIfUp - M.decreaseIfDown) * (1 + M.interestRate) ^ k)

/-- C5 as stated is false: the replication identity with a single factor
`(1+ρ)` on the risk-free amount fails when `ρ ≠ 0`.  On the model
`(S0=100, d=1/2, u=2, N=2, ρ=1/10)` with the digital payoff `1_{x>100}` and
maturity `1`, at node `(0,0)`:
`riskyAmount*lattice(1,0) + freeAmount*(1+ρ) = 29/30` while `grid(1,0) = 1`. -/
theorem strategy_claimed_identity_counterexample :
    amountInRiskyAsset ⟨100, 1/2, 2, 2, 1/10⟩ (fun x => if 100 < x then 1 else 0) 1 0 0 *
          realization ⟨100, 1/2, 2, 2, 1/10⟩ 1 0 +
        amountInRiskFreeAsset ⟨100, 1/2, 2, 2, 1/10⟩ (fun x => if 100 < x then 1 else 0) 1 0 0 *
          (1 + (⟨100, 1/2, 2, 2, 1/10⟩ : BinomialModel).interestRate) ≠
      getDiscountedValuesPortfolioBackward ⟨100, 1/2, 2, 2, 1/10⟩
        (fun x => if 100 < x then 1 else 0) 1 1 0 := by
  norm_num [amountInRiskyAsset, amountInRiskFreeAsset,
    getValuesDiscountedPortfolioBackwardAtGivenTime, getValuesPortfolioBackwardAtGivenTime,
    getDiscountedValuesPortfolioBackward, discountedValuesPortfolioRow, valuesPortfolioRow,
    realization, riskNeutralProbabilityUp]

/-- C5 amended: the strategy extracted by `EuropeanOption.getStrategy`
satisfies, at every node `(k, j)` with `j ≤ k < m`, the replication identity
`riskyAmount(k,j)*lattice(k+1,j) + freeAmount(k,j)*(1+ρ)^k = grid(k+1,j)`
(the risk-free amount is in units of the current risk-free account
`(1+ρ)^k`, not of a single growth factor `(1+ρ)`), where `grid` is the
discounted value grid; and `riskyAmount(k,j)` is the discrete delta
`(Vup - Vdown)/(Sup - Sdown)` of those discounted values. -/
theorem strategy_replication_identity (M : BinomialModel) (f : ℚ → ℚ) (m k j : ℕ)
    (h0 : 0 < M.initialValue) (hd : 0 < M.decreaseIfDown)
    (hdr : M.decreaseIfDown < 1 + M.interestRate) (hru : 1 + M.interestRate < M.increaseIfUp)
    (hj : j ≤ k) (_hk : k < m) (_hm : m ≤ M.numberOfTimes - 1) :
    amountInRiskyAsset M f m k j =
        (getValuesDiscountedPortfolioBackwardAtGivenTime M f (k + 1) m j -
            getValuesDiscountedPortfolioBackwardAtGivenTime M f (k + 1) m (j + 1)) /
          (realization M (k + 1) j - realization M (k + 1) (j + 1)) ∧
      amountInRiskyAsset M f m k j * realization M (k + 1) j +
          amountInRiskFreeAsset M f m k j * (1 + M.interestRate) ^ k =
        getDiscountedValuesPortfolioBackward M f m (k + 1) j := by
  refine ⟨rfl, ?_⟩
  have hu : (0 : ℚ) < M.increaseIfUp := lt_trans (lt_trans hd hdr) hru
  have hrho : (0 : ℚ) < 1 + M.interestRate := lt_trans hd hdr
  have h1 : realization M (k + 1) j =
      M.increaseIfUp * (M.initialValue * M.increaseIfUp ^ (k - j) * M.decreaseIfDown ^ j) := by
    rw [realization_closed_form M (k + 1) j (by omega)]
    have he : k + 1 - j = (k - j) + 1 := by omega
    rw [he, pow_succ]
    ring
  have h2 : realization M (k + 1) (j + 1) =
      M.decreaseIfDown * (M.initialValue * M.increaseIfUp ^ (k - j) * M.decreaseIfDown ^ j) := by
    rw [realization_closed_form M (k + 1) (j + 1) (by omega)]
    have he : k + 1 - (j + 1) = k - j := by omega
    rw [he, pow_succ]
    ring
  have hc : (0 : ℚ) < M.initialValue * M.increaseIfUp ^ (k - j) * M.decreaseIfDown ^ j := by
    positivity
  rw [amountInRiskyAsset, amountInRiskFreeAsset, getDiscountedValuesPortfolioBackward,
    discountedRow_eq_div, getValuesDiscountedPortfolioBackwardAtGivenTime,
    getValuesDiscountedPortfolioBackwardAtGivenTime, getValuesPortfolioBackwardAtGivenTime,
    getValuesPortfolioBackwardAtGivenTime, h1, h2]
  have hud : M.increaseIfUp - M.decreaseIfDown ≠ 0 := by
    intro hcontra
    have : M.increaseIfUp = M.decreaseIfDown := by linarith [sub_eq_zero.mp hcontra]
    linarith
  have hden : M.increaseIfUp * (M.initialValue * M.increaseIfUp ^ (k - j) * M.decreaseIfDown ^ j) -
      M.decreaseIfDown * (M.initialValue * M.increaseIfUp ^ (k - j) * M.decreaseIfDown ^ j) ≠ 0 := by
    have : M.increaseIfUp * (M.initialValue * M.increaseIfUp ^ (k - j) * M.decreaseIfDown ^ j) -
        M.decreaseIfDown * (M.initialValue * M.increaseIfUp ^ (k - j) * M.decreaseIfDown ^ j) =
        (M.increaseIfUp - M.decreaseIfDown) *
          (M.initialValue * M.increaseIfUp ^ (k - j) * M.decreaseIfDown ^ j) := by ring
    rw [this]
    exact mul_ne_zero hud (ne_of_gt hc)
  have hrpow : ((1 : ℚ) + M.interestRate) ^ (m - (k + 1)) ≠ 0 := pow_ne_zero _ (ne_of_gt hrho)
  have hkpow : ((1 : ℚ) + M.interestRate) ^ k ≠ 0 := pow_ne_zero _ (ne_of_gt hrho)
  field_simp
  ring

theorem strategy_replication_identity_witness :
    amountInRiskyAsset ⟨100, 1/2, 2, 2, 1/10⟩ (fun x => if 100 < x then 1 else 0) 1 0 0 =
        (getValuesDiscountedPortfolioBackwardAtGivenTime ⟨100, 1/2, 2, 2, 1/10⟩
            (fun x => if 100 < x then 1 else 0) 1 1 0 -
          getValuesDiscountedPortfolioBackwardAtGivenTime ⟨100, 1/2, 2, 2, 1/10⟩
            (fun x => if 100 < x then 1 else 0) 1 1 1) /
          (realization ⟨100, 1/2, 2, 2, 1/10⟩ 1 0 - realization ⟨100, 1/2, 2, 2, 1/10⟩ 1 1) ∧
      amountInRiskyAsset ⟨100, 1/2, 2, 2, 1/10⟩ (fun x => if 100 < x then 1 else 0) 1 0 0 *
          realization ⟨100, 1/2, 2, 2, 1/10⟩ 1 0 +
        amountInRiskFreeAsset ⟨100, 1/2, 2, 2, 1/10⟩ (fun x => if 100 < x then 1 else 0) 1 0 0 *
          (1 + (⟨100, 1/2, 2, 2, 1/10⟩ : BinomialModel).interestRate) ^ 0 =
        getDiscountedValuesPortfolioBackward ⟨100, 1/2, 2, 2, 1/10⟩
          (fun x => if 100 < x then 1 else 0) 1 1 0 :=
  strategy_replication_identity ⟨100, 1/2, 2, 2, 1/10⟩ (fun x => if 100 < x then 1 else 0) 1 0 0
    (by norm_num) (by norm_num) (by norm_num) (by norm_num) (le_refl 0) Nat.zero_lt_one
    (by norm_num)

/-- `BinomialModelSmart.findThreshold`: the source computes
`math.ceil(math.log(((1+ρ)/d)**timeIndex, u/d))`.  In exact arithmetic, for a
base `u/d > 1` this ceiling of the logarithm is the least integer `k` with
`(u/d)^k ≥ ((1+ρ)/d)^timeIndex`; for valid parameters that `k` lies in
`[0, timeIndex]`, so it is embedded as a bounded search (with the vacuous
default `timeIndex` when no such index exists). -/
def findThreshold (M : BinomialModel) (timeIndex : ℕ) : ℕ :=
  ((List.range (timeIndex + 1)).find? (fun k =>
      decide (((1 + M.interestRate) / M.decreaseIfDown) ^ timeIndex ≤
        (M.increaseIfUp / M.decreaseIfDown) ^ k))).getD timeIndex

/-- `BinomialModelSmart.getPercentageOfGainAtGivenTime`: `100.0` at time `0`,
otherwise `100 * sum(probabilities[0 : timeIndex - threshold + 1])`. -/
def getPercentageOfGainAtGivenTime (M : BinomialModel) : ℕ → ℚ
  | 0 => 100
  | t + 1 =>
      100 * ((getProbabilitiesOfRealizationsAtGivenTime M (t + 1)).take
        ((t + 1) - findThreshold M (t + 1) + 1)).sum

lemma find?_range_least (p : ℕ → Bool) :
    ∀ n k : ℕ, (List.range n).find? p = some k →
      p k = true ∧ ∀ j, j < k → ¬ p j = true := by
  intro n
  induction n with
  | zero => intro k h; simp at h
  | succ n ih =>
      intro k h
      rw [List.range_succ, List.find?_append] at h
      cases hfind : (List.range n).find? p with
      | some m =>
          rw [hfind, Option.or_some] at h
          have hmk : m = k := by injection h
          subst hmk
          exact ih m hfind
      | none =>
          rw [hfind, Option.none_or, List.find?_singleton] at h
          have hall := List.find?_eq_none.mp hfind
          by_cases hp : p n
          · rw [if_pos hp] at h
            cases h
            exact ⟨hp, fun j hj => hall j (List.mem_range.mpr hj)⟩
          · rw [if_neg hp] at h
            cases h

lemma find?_range_mem (p : ℕ → Bool) (n k : ℕ) (h : (List.range n).find? p = some k) :
    k < n := by
  have := List.mem_of_find?_eq_some h
  exact List.mem_range.mp this

lemma findThreshold_spec (M : BinomialModel) (t : ℕ) (hd : 0 < M.decreaseIfDown)
    (hdr : M.decreaseIfDown < 1 + M.interestRate) (hru : 1 + M.interestRate < M.increaseIfUp) :
    ((1 + M.interestRate) / M.decreaseIfDown) ^ t ≤
        (M.increaseIfUp / M.decreaseIfDown) ^ findThreshold M t ∧
      (∀ j, j < findThreshold M t →
        ¬ ((1 + M.interestRate) / M.decreaseIfDown) ^ t ≤
            (M.increaseIfUp / M.decreaseIfDown) ^ j) ∧
      findThreshold M t ≤ t := by
  have hrho : (0 : ℚ) < 1 + M.interestRate := lt_trans hd hdr
  have hpt : ((1 + M.interestRate) / M.decreaseIfDown) ^ t ≤
      (M.increaseIfUp / M.decreaseIfDown) ^ t :=
    pow_le_pow_left₀ (div_nonneg hrho.le hd.le)
      ((div_le_div_iff_of_pos_right hd).mpr (le_of_lt hru)) t
  cases hfind : (List.range (t + 1)).find? (fun k =>
      decide (((1 + M.interestRate) / M.decreaseIfDown) ^ t ≤
        (M.increaseIfUp / M.decreaseIfDown) ^ k)) with
  | none =>
      exfalso
      have hnone := List.find?_eq_none.mp hfind t (List.mem_range.mpr (Nat.lt_succ_self t))
      simp only [decide_eq_true_eq] at hnone
      exact hnone hpt
  | some k =>
      obtain ⟨hk, hmin⟩ := find?_range_least _ _ _ hfind
      have hklt := find?_range_mem _ _ _ hfind
      have heq : findThreshold M t = k := by rw [findThreshold, hfind]; rfl
      rw [heq]
      simp only [decide_eq_true_eq] at hk hmin
      exact ⟨hk, fun j hj => hmin j hj, by omega⟩

lemma findThreshold_char (M : BinomialModel) (t : ℕ) (hd : 0 < M.decreaseIfDown)
    (hdr : M.decreaseIfDown < 1 + M.interestRate) (hru : 1 + M.interestRate < M.increaseIfUp)
    (k : ℕ) :
    ((1 + M.interestRate) / M.decreaseIfDown) ^ t ≤
        (M.increaseIfUp / M.decreaseIfDown) ^ k ↔ findThreshold M t ≤ k := by
  obtain ⟨hθ, hmin, _⟩ := findThreshold_spec M t hd hdr hru
  have hb : (1 : ℚ) < M.increaseIfUp / M.decreaseIfDown := by
    rw [one_lt_div hd]
    linarith
  constructor
  · intro hk
    by_contra hlt
    exact hmin k (by omega) hk
  · intro hk
    exact le_trans hθ (pow_le_pow_right₀ (le_of_lt hb) hk)

/-- C8: the code contradicts its own docstring at exact-power inputs.  On the
model `(S0=1, d=1/2, u=2, N=3, ρ=0)` at time `2`, `findThreshold` returns `1`,
but one up and one down give `u^1*d^(2-1) = 1 = (1+ρ)^2`: the discounted
realization with `1` up EQUALS (does not exceed) the initial value, while `2`
ups do exceed it, so the smallest `k` with `u^k*d^(2-k) > (1+ρ)^2` is `2`. -/
theorem findThreshold_boundary_eval :
    findThreshold ⟨1, 1/2, 2, 3, 0⟩ 2 = 1 ∧
      ¬ ((1 + (0 : ℚ)) ^ 2 < (2 : ℚ) ^ 1 * (1/2 : ℚ) ^ (2 - 1)) ∧
      (1 + (0 : ℚ)) ^ 2 < (2 : ℚ) ^ 2 * (1/2 : ℚ) ^ (2 - 2) := by
  refine ⟨?_, by norm_num, by norm_num⟩
  rw [findThreshold]
  have h3 : List.range (2 + 1) = [0, 1, 2] := rfl
  rw [h3, List.find?_cons_of_neg _ (by norm_num), List.find?_cons_of_pos _ (by norm_num)]
  rfl

/-- The node-counting reading of C9 (spec §6 "percentage of nodes whose
discounted value exceeds the initial value"), stated from the claim's words to
compare against the source. -/
def percentageOfGainNodeCount (M : BinomialModel) (t : ℕ) : ℚ :=
  100 * (((Finset.range (t + 1)).filter fun j =>
      M.initialValue < realization M t j / (1 + M.interestRate) ^ t).card : ℚ) / (t + 1)

/-- C9 as stated is false: `getPercentageOfGainAtGivenTime` is probability
weighted, not a node count.  On the model `(S0=1, d=1/2, u=2, N=2, ρ=0)` at
time `1` exactly one of the two nodes gains, so the node percentage is `50`,
but the code returns `100*q = 100/3`. -/
theorem percentage_gain_nodes_counterexample :
    getPercentageOfGainAtGivenTime ⟨1, 1/2, 2, 2, 0⟩ 1 ≠
      percentageOfGainNodeCount ⟨1, 1/2, 2, 2, 0⟩ 1 := by
  have hth : findThreshold ⟨1, 1/2, 2, 2, 0⟩ (0 + 1) = 1 := by
    rw [findThreshold]
    have h2 : List.range (0 + 1 + 1) = [0, 1] := rfl
    rw [h2, List.find?_cons_of_neg _ (by norm_num), List.find?_cons_of_pos _ (by norm_num)]
    rfl
  have hcode : getPercentageOfGainAtGivenTime ⟨1, 1/2, 2, 2, 0⟩ (0 + 1) = 100 / 3 := by
    rw [getPercentageOfGainAtGivenTime, hth]
    have hr : List.range (0 + 1 + 1) = [0, 1] := rfl
    rw [getProbabilitiesOfRealizationsAtGivenTime, hr]
    norm_num [probabilityOfRealization, riskNeutralProbabilityUp, List.take]
  have hnodes : percentageOfGainNodeCount ⟨1, 1/2, 2, 2, 0⟩ 1 = 50 := by
    rw [percentageOfGainNodeCount]
    have h2 : Finset.range (1 + 1) = {0, 1} := by decide
    rw [h2, Finset.filter_insert, Finset.filter_singleton,
      if_pos (by norm_num [realization]), if_neg (by norm_num [realization])]
    norm_num
  rw [show (1 : ℕ) = 0 + 1 from rfl, hcode]
  rw [show (0 + 1 : ℕ) = 1 from rfl, hnodes]
  norm_num

lemma gain_condition_iff (M : BinomialModel) (h0 : 0 < M.initialValue)
    (hd : 0 < M.decreaseIfDown) (hdr : M.decreaseIfDown < 1 + M.interestRate)
    (hru : 1 + M.interestRate < M.increaseIfUp) (t j : ℕ) (hj : j ≤ t) :
    (M.initialValue ≤ realization M t j / (1 + M.interestRate) ^ t ↔
      ((1 + M.interestRate) / M.decreaseIfDown) ^ t ≤
        (M.increaseIfUp / M.decreaseIfDown) ^ (t - j)) := by
  have hrho : (0 : ℚ) < 1 + M.interestRate := lt_trans hd hdr
  have hu : (0 : ℚ) < M.increaseIfUp := lt_trans hrho hru
  rw [realization_closed_form M t j hj, div_pow, div_pow,
    le_div_iff₀ (pow_pos hrho t),
    div_le_div_iff₀ (pow_pos hd t) (pow_pos hd (t - j))]
  have hdt : M.decreaseIfDown ^ t = M.decreaseIfDown ^ (t - j) * M.decreaseIfDown ^ j := by
    rw [← pow_add]
    congr 1
    omega
  rw [hdt]
  constructor
  · intro h
    nlinarith [mul_le_mul_of_nonneg_right h (le_of_lt (pow_pos hd (t - j))),
      pow_pos hd (t - j), pow_pos hd j, pow_pos hrho t, pow_pos hu (t - j)]
  · intro h
    nlinarith [mul_le_mul_of_nonneg_left h (le_of_lt h0),
      pow_pos hd (t - j), pow_pos hd j, pow_pos hrho t, pow_pos hu (t - j)]

/-- C9 amended: `gainProbabilityAt` (`getPercentageOfGainAtGivenTime`) is
probability weighted, not a node count: at time `0` it returns `100`, and for
`1 ≤ t ≤ numberOfTimes-1` under valid parameters it returns `100` times the
sum of the risk-neutral probabilities of the nodes at time `t` whose
discounted value is at least the initial value (with the boundary node of an
exact tie included, matching the `ceil`-based threshold of the source). -/
theorem percentage_gain_eq_weighted_probability (M : BinomialModel)
    (h0 : 0 < M.initialValue) (hd : 0 < M.decreaseIfDown)
    (hdr : M.decreaseIfDown < 1 + M.interestRate) (hru : 1 + M.interestRate < M.increaseIfUp)
    (t : ℕ) (_ht : t ≤ M.numberOfTimes - 1) :
    getPercentageOfGainAtGivenTime M 0 = 100 ∧
      (1 ≤ t → getPercentageOfGainAtGivenTime M t =
        100 * ∑ j ∈ (Finset.range (t + 1)).filter
            (fun j => M.initialValue ≤ realization M t j / (1 + M.interestRate) ^ t),
          probabilityOfRealization M t j) := by
  refine ⟨rfl, fun h1t => ?_⟩
  cases t with
  | zero => omega
  | succ s =>
      obtain ⟨hθp, hmin, hθle⟩ := findThreshold_spec M (s + 1) hd hdr hru
      have hfilter : (Finset.range (s + 1 + 1)).filter
          (fun j => M.initialValue ≤ realization M (s + 1) j / (1 + M.interestRate) ^ (s + 1)) =
          Finset.range (s + 1 - findThreshold M (s + 1) + 1) := by
        ext j
        simp only [Finset.mem_filter, Finset.mem_range]
        constructor
        · rintro ⟨hjlt, hcond⟩
          have hj : j ≤ s + 1 := by omega
          have hpow := (gain_condition_iff M h0 hd hdr hru (s + 1) j hj).mp hcond
          have hθk := (findThreshold_char M (s + 1) hd hdr hru (s + 1 - j)).mp hpow
          omega
        · intro hjlt
          have hj : j ≤ s + 1 := by omega
          refine ⟨by omega, ?_⟩
          rw [gain_condition_iff M h0 hd hdr hru (s + 1) j hj]
          exact (findThreshold_char M (s + 1) hd hdr hru (s + 1 - j)).mpr (by omega)
      rw [hfilter, getPercentageOfGainAtGivenTime, getProbabilitiesOfRealizationsAtGivenTime,
        ← List.map_take, List.take_range]
      have hminn : min (s + 1 - findThreshold M (s + 1) + 1) (s + 1 + 1) =
          s + 1 - findThreshold M (s + 1) + 1 := by omega
      rw [hminn, sum_map_range]

theorem percentage_gain_eq_weighted_probability_witness :
    getPercentageOfGainAtGivenTime ⟨4, 1/2, 2, 3, 1/10⟩ 0 = 100 ∧
      (1 ≤ 2 → getPercentageOfGainAtGivenTime ⟨4, 1/2, 2, 3, 1/10⟩ 2 =
        100 * ∑ j ∈ (Finset.range (2 + 1)).filter
            (fun j => (⟨4, 1/2, 2, 3, 1/10⟩ : BinomialModel).initialValue ≤
              realization ⟨4, 1/2, 2, 3, 1/10⟩ 2 j /
                (1 + (⟨4, 1/2, 2, 3, 1/10⟩ : BinomialModel).interestRate) ^ 2),
          probabilityOfRealization ⟨4, 1/2, 2, 3, 1/10⟩ 2 j) :=
  percentage_gain_eq_weighted_probability ⟨4, 1/2, 2, 3, 1/10⟩
    (by norm_num) (by norm_num) (by norm_num) (by norm_num) 2 (by norm_num)
